import Mathlib

/-!
Shallow embedding of the audio-reactive LED visualizer pipeline of the
Ambilight client (the `audio` package: `Visualizer.process`, the decode loop
of `Visualizer.startCapture`, `readInt32`, `SpanLog`, `normalize`,
`Visualizer.Stop`, and the package-level smoothing history `pixs`), together
with proofs about its stages.

Modelling conventions:
* Go `float64` arithmetic is modelled over an arbitrary `LinearOrderedField K`
  (instantiated at `ℚ` for concrete evaluations; `K = ℝ` together with
  `powHalf = Real.sqrt` recovers the exact real-number idealization of the
  pipeline).  The only non-rational primitive used by the source,
  `math.Pow(v, 0.5)` (and `math.Sqrt`), is passed as a function parameter
  (`powHalf` / `sqrtFn`), so every theorem quantifies over it and in
  particular holds for the true square root on the reals.
* Runtime index/slice panics of the Go code are modelled with `Option`:
  a `none` result means the corresponding Go code would panic (crash the
  processing goroutine) instead of producing a value.
* Where a claim is specifically about an IEEE division by zero (NaN), the
  division is modelled with an explicit `Option` (`SpanLogArg`); elsewhere
  Lean's `x / 0 = 0` convention stands only in positions whose value no
  theorem depends on.
-/

namespace Ambilight

/-! ### Frame decoding (startCapture, lines 243–247, and readInt32, lines 300–302) -/

/-- Reinterpretation of the low 32 bits of a machine word as a signed `int32`,
as performed by the Go conversion `int32(u)` for `u : uint32`. -/
def toInt32 (u : ℕ) : ℤ :=
  if u % 2 ^ 32 < 2 ^ 31 then ((u % 2 ^ 32 : ℕ) : ℤ) else ((u % 2 ^ 32 : ℕ) : ℤ) - 2 ^ 32

/-- `readInt32` (lines 300–302):
`int32(uint32(b[0]) | uint32(b[1])<<8 | uint32(b[2])<<16 | uint32(b[3])<<24)`.
The bitwise or of disjoint byte-aligned shifts equals the sum of the shifted
bytes; the arguments are `uint8` values, recorded here by `% 256`. -/
def readInt32 (b0 b1 b2 b3 : ℕ) : ℤ :=
  toInt32 (b0 % 256 + b1 % 256 * 2 ^ 8 + b2 % 256 * 2 ^ 16 + b3 % 256 * 2 ^ 24)

/-- The read loop of lines 244–247:
`for i := 0; i < len(buf); i += 4 { v := float64(readInt32(buf[i:i+4])); samples = append(samples, v) }`.
`none` models the slice-bounds panic of `buf[i:i+4]` on a buffer whose length
is not a multiple of 4 (never the case for captured buffers, whose length is
`availableFrames * blockAlign` with `blockAlign = 4`). -/
def decodeChunks : List ℕ → Option (List ℤ)
  | [] => some []
  | b0 :: b1 :: b2 :: b3 :: rest => (decodeChunks rest).map (readInt32 b0 b1 b2 b3 :: ·)
  | _ => none

/-- Lines 243–247 of `startCapture`.  `samples := make([]float64, len(buf)/4)`
allocates a slice that already contains `len(buf)/4` zero elements, and the
loop then *appends* the decoded values after them, so the decoded sequence is
`len(buf)/4` zeros followed by the `len(buf)/4` decoded samples. -/
def decodeSamples (buf : List ℕ) : Option (List ℤ) :=
  (decodeChunks buf).map (fun vs => List.replicate (buf.length / 4) 0 ++ vs)

/-! ### Temporal smoothing (process, lines 494–521) -/

/-- Lines 494–497: `pixs = append(pixs, pix); if len(pixs) > v.windowSize { pixs = pixs[1:] }`. -/
def pushFrame (windowSize : ℕ) (pixs : List (List ℕ)) (pix : List ℕ) : List (List ℕ) :=
  let pixs1 := pixs ++ [pix]
  if windowSize < pixs1.length then pixs1.tail else pixs1

/-- Line 504: `w := float64((i+1)*(i+1) + len(pixs)*len(pixs))`, for the history
frame at position `i` (0 = oldest) with `L = len(pixs)` the history length. -/
def weightAt (L i : ℕ) : ℚ := (((i + 1) * (i + 1) + L * L : ℕ) : ℚ)

/-- Lines 499–508: the per-frame weights, in history order. -/
def weightsFor (L : ℕ) : List ℚ := (List.range L).map (weightAt L)

/-- The inner loop of lines 511–515 for one history frame:
`for j, p := range p2 { pix2[j] = pix2[j] + float64(p)*weights[i] }`.
`none` models the `pix2[j]` index panic raised when a history frame is longer
than the current frame (all frames have equal length in normal operation). -/
def accumFrame : List ℚ → List ℕ → ℚ → Option (List ℚ)
  | pix2, [], _ => some pix2
  | q :: pix2, p :: frame, w => (accumFrame pix2 frame w).map ((q + (p : ℚ) * w) :: ·)
  | [], _ :: _, _ => none

/-- The outer loop of lines 511–515, folding `accumFrame` over the history with
the matching weights.  A history frame beyond the end of the weights slice
(`weights[i]` out of range) would also panic; it cannot occur because both
have length `len(pixs)`. -/
def smoothAccum : List ℚ → List (List ℕ) → List ℚ → Option (List ℚ)
  | pix2, [], _ => some pix2
  | pix2, frame :: frames, w :: ws =>
    match accumFrame pix2 frame w with
    | some pix2' => smoothAccum pix2' frames ws
    | none => none
  | _, _ :: _, [] => none

/-- Lines 499–521: the recency-weighted average of the whole history.
`pixLen = len(pix)` is the length of the newest frame (it sizes `pix2` and
`pix3`).  The result is `pix3`, the smoothed frame as float values. -/
def smoothFrames (pixs : List (List ℕ)) (pixLen : ℕ) : Option (List ℚ) :=
  match smoothAccum (List.replicate pixLen (0 : ℚ)) pixs (weightsFor pixs.length) with
  | some pix2 => some (pix2.map (fun q => q / (weightsFor pixs.length).sum))
  | none => none

/-! ### Segment distribution (process, lines 523–560) -/

/-- Static segment configuration `{Id, Leds}` (source type `Segment`). -/
structure Segment where
  id : ℕ
  leds : ℕ
deriving DecidableEq

/-- Go `uint8(f)` applied to a float in `[0, 255]`: truncation toward zero. -/
def byteOfRat (q : ℚ) : ℕ := (Int.floor q).toNat

/-- The per-segment copy loop of lines 529–542:
`for i := 0; i < length; i += 4 { offset := i; pix4[i+k] = uint8(pix3[offset+k]) }`.
Note `offset := i` is the SEGMENT-LOCAL loop index — the source never adds the
total size of the earlier segments, so every segment copies from the start of
`pix3`.  The list argument is the remaining suffix of `pix3` (the copy
consumes it from the front); `none` models the `pix3[offset+k]` index panic
when `pix3` is shorter than the segment's byte length. -/
def copyQuads : List ℚ → ℕ → Option (List ℕ)
  | _, 0 => some []
  | r :: g :: b :: a :: rest, q + 1 =>
    (copyQuads rest q).map
      (fun tail => byteOfRat r :: byteOfRat g :: byteOfRat b :: byteOfRat a :: tail)
  | _, _ + 1 => none

/-- Lines 526–544 for one segment: `length := seg.Leds * 4` quad-copies from
the start of the smoothed frame (`pix := pix4[:seg.Leds*4]`). -/
def segmentBytes (pix3 : List ℚ) (leds : ℕ) : Option (List ℕ) := copyQuads pix3 leds

/-- Option-valued `List.map`: `none` as soon as one element maps to `none`
(models a loop that panics partway). -/
def mapOption {α β : Type} (f : α → Option β) : List α → Option (List β)
  | [] => some []
  | a :: l =>
    match f a, mapOption f l with
    | some b, some bs => some (b :: bs)
    | _, _ => none

/-- Lines 523–560: `for _, seg := range v.segments { ... segs = append(segs, visualizer.Segment{Id: seg.Id, Pix: pix}) }`. -/
def distributeSegments (segments : List Segment) (pix3 : List ℚ) : Option (List (ℕ × List ℕ)) :=
  mapOption (fun seg => (segmentBytes pix3 seg.leds).map (fun bytes => (seg.id, bytes))) segments

/-! ### Dispatch state (process, lines 330–346 and 494–565; pixs, line 577) -/

/-- The per-instance state relevant to processing: the single-flight flag
`processing` (a field of `Visualizer`, guarded by `mux`) and the static
configuration.  Note that the smoothing history is NOT here: in the source it
is the package-level variable `pixs` (line 577), not a `Visualizer` field. -/
structure VisualizerState where
  processing : Bool
  windowSize : ℕ
  segments : List Segment
deriving DecidableEq

/-- Line 577: `var pixs [][]byte` — the smoothing history is package-level
state, shared by every `Visualizer` value in the process. -/
structure AudioGlobals where
  pixs : List (List ℕ)
deriving DecidableEq

/-- `Visualizer.process`, from the single-flight guard (lines 333–346) through
history push (494–497), smoothing (499–521), segment distribution and event
emission (523–565).  The synthesized current frame `pix` (the RGBA bytes
produced by the spectral/color stages, lines 425–492) is taken as input.
The third component is the emitted `UpdateEvent` segment list; `none` means
no event was emitted — either the call was skipped by the guard (in which
case nothing at all is touched) or a downstream index panic killed the
goroutine (modelled by the `none` branches of the stages). -/
def dispatchProcess (v : VisualizerState) (g : AudioGlobals) (pix : List ℕ) :
    VisualizerState × AudioGlobals × Option (List (ℕ × List ℕ)) :=
  if v.processing then (v, g, none)
  else
    let pixs1 := pushFrame v.windowSize g.pixs pix
    match smoothFrames pixs1 pix.length with
    | none => (v, ⟨pixs1⟩, none)
    | some pix3 =>
      match distributeSegments v.segments pix3 with
      | none => (v, ⟨pixs1⟩, none)
      | some segs => (v, ⟨pixs1⟩, some segs)

/-- A first `Visualizer` instance (window size 2, one 1-LED segment). -/
def instA : VisualizerState := ⟨false, 2, [⟨0, 1⟩]⟩

/-- A second, distinct `Visualizer` instance with the same configuration. -/
def instB : VisualizerState := ⟨false, 2, [⟨0, 1⟩]⟩

/-- A dark frame processed by the first instance. -/
def frameA : List ℕ := [0, 0, 0, 0]

/-- A bright frame processed by the second instance. -/
def frameB : List ℕ := [13, 13, 13, 13]

/-! ### Lifecycle (Start, lines 47–73; Stop, lines 79–88) -/

/-- The lifecycle fields of `Visualizer`: whether `v.cancel` is non-nil, and
the `done` channel — `none` models a nil channel (`Start` never ran), and
`some n` a channel on which `n` sends are pending/buffered for a receiver. -/
structure VisLifecycle where
  cancel : Bool
  done : Option ℕ
deriving DecidableEq

/-- `New` (lines 579–597) never touches `cancel`/`done`, so a fresh
`Visualizer` has both at their zero values: nil function, nil channel. -/
def newVisualizer : VisLifecycle := ⟨false, none⟩

/-- `Visualizer.Stop` (lines 79–88):
`if v.cancel != nil { v.cancel(); v.cancel = nil }; <-v.done; return nil`,
modelled for a state in which no other task is live (exactly the situations
of a stop before any start, or a repeated stop after a completed one).
The receive `<-v.done` returns only if a send is already pending; receiving
from a nil channel (`done = none`), or from an empty channel that no live
sender will ever write (`done = some 0`), blocks forever — result `none`. -/
def Stop (s : VisLifecycle) : Option VisLifecycle :=
  let s1 := if s.cancel then { s with cancel := false } else s
  match s1.done with
  | none => none
  | some 0 => none
  | some (n + 1) => some { s1 with done := some n }

/-! ### Spectral analysis (process, lines 362–413; SpanLog, lines 310–320;
normalize, lines 569–575) -/

section Analyzer

variable {K : Type} [LinearOrderedField K]

/-- `normalize` (lines 569–575): scales `val` from `[mn, mx]` to `[0, 1]`;
returns `mx` itself when the range is empty (the Go comment: defined, not
NaN). -/
def normalize (val mn mx : K) : K := if mx = mn then mx else (val - mn) / (mx - mn)

/-- Lines 369–374: the running maximum of the magnitudes, starting from 0
(`if cmplx.Abs(c) > maxfreq { maxfreq = cmplx.Abs(c) }`). -/
def maxFreq (freqs : List K) : K := freqs.foldl (fun acc f => if acc < f then f else acc) 0

/-- `SpanLog` (lines 310–320): `min, max = math.Min(max, min), math.Max(max, min)`;
`d := max - min`; `X[i] = math.Pow(min + d*(float64(i)/float64(nPoints-1)), 0.5)`.
`powHalf` abstracts `math.Pow(·, 0.5)` (the square root; irrational on the
reals, hence a parameter).  The `nPoints - 1` denominator is the Go `int`
subtraction; for `nPoints = 1` the division is `0/0` (NaN in IEEE — no
theorem below depends on the value of an axis entry; see `SpanLogArg` for the
exact NaN accounting). -/
def SpanLog (powHalf : K → K) (a b : K) (nPoints : ℕ) : List K :=
  let lo := min a b
  let hi := max a b
  let d := hi - lo
  (List.range nPoints).map (fun i : ℕ => powHalf (lo + d * ((i : K) / ((nPoints - 1 : ℕ) : K))))

/-- Go's `sort.Search` binary-search loop
(`for i < j { h := (i+j)/2; if !f(h) { i = h+1 } else { j = h } }`) with
`f(h) = X[h] >= x` (that is, `x ≤ X[h]`), as used by `sort.SearchFloat64s`.
The fuel argument makes the recursion structural; `search` below supplies
fuel `X.length ≥ j - i`, which is never exhausted.  `getD _ 0` is only
evaluated at indices `< X.length`. -/
def searchGo (X : List K) (x : K) : ℕ → ℕ → ℕ → ℕ
  | 0, i, _ => i
  | fuel + 1, i, j =>
    if i < j then
      if x ≤ X.getD ((i + j) / 2) 0 then searchGo X x fuel i ((i + j) / 2)
      else searchGo X x fuel ((i + j) / 2 + 1) j
    else i

/-- `sort.SearchFloat64s(X, x)`: the least index at which `x` could be
inserted (for sorted `X`); unconditionally, the binary-search result `i`
satisfies `X[i-1] < x` (if `i > 0`) and `x ≤ X[i]` (if `i < len X`). -/
def SearchFloat64s (X : List K) (x : K) : ℕ := searchGo X x X.length 0 X.length

/-- `Function.At` of the `piecewiselinear` collaborator
(github.com/sgreben/piecewiselinear), the library the source feeds with
`Y = freqs`, `X = SpanLog(0, 1, len(Y))` (lines 405–406) and queries at the
LED positions (line 412): binary search via `sort.SearchFloat64s`, clamping
to `Y[0]` / `Y[len-1]` outside the axis, exact hits, and otherwise linear
interpolation between the two neighbouring points.  `none` models the
`Y[...]` index panic on an empty function. -/
def At (X Y : List K) (x : K) : Option K :=
  let i := SearchFloat64s X x
  if i = 0 then Y.get? 0
  else if i = X.length then Y.get? (i - 1)
  else if X.getD i 0 = x then Y.get? i
  else
    match X.get? (i - 1), X.get? i, Y.get? (i - 1), Y.get? i with
    | some x0, some x1, some y0, some y1 => some (y0 + (x - x0) / (x1 - x0) * (y1 - y0))
    | _, _, _, _ => none

/-- Lines 365–413 of `process`, from the point the coefficient magnitudes
exist: the running maximum (369–374), the silence gate (377–380), the
normalization pass (399–402), the warped axis (405–406) and the resampling
onto `maxLeds` points (408–413).  The magnitude list `mags`
(`cmplx.Abs` of the kept FFT coefficients — nonnegative by construction) is
the input; the FFT itself is the gonum library collaborator.
`(maxLeds - 1 : ℕ)` is the Go `int` subtraction of line 412. -/
def binsFromMags (powHalf : K → K) (mags : List K) (peak : K) (maxLeds : ℕ) : Option (List K) :=
  let maxfreq := maxFreq mags
  let freqs1 := if peak = 0 then mags.map (fun _ => 0) else mags
  let freqs2 := freqs1.map (fun f => normalize f 0 maxfreq)
  let X := SpanLog powHalf 0 1 freqs2.length
  mapOption (fun i : ℕ => At X freqs2 ((i : K) / ((maxLeds - 1 : ℕ) : K))) (List.range maxLeds)

/-- The value-channel shaping of the color synthesizer (lines 441–471):
`val = math.Sqrt(1 - math.Pow(freq-1, 2))`;
`val = math.Min(peak*5, 1) * val`; `val = math.Min(val, 1)`;
`val = math.Max(val, 0)`; `val = 0.25 + val*0.75`.
`sqrtFn` abstracts `math.Sqrt`.  The hue and saturation of the gradient color
are not modified by this shaping. -/
def shapedVal (sqrtFn : K → K) (freq peak : K) : K :=
  let val := sqrtFn (1 - (freq - 1) ^ 2)
  let val := min (peak * 5) 1 * val
  let val := min val 1
  let val := max val 0
  1 / 4 + val * (3 / 4)

end Analyzer

/-- Number of magnitudes entering the axis/resampling stage for an `n`-sample
frame: gonum's real FFT (`fourier.NewFFT(n).Coefficients`) returns `n/2 + 1`
coefficients (library contract), and line 368 keeps `coeff[:len(coeff)/2]`. -/
def magCount (n : ℕ) : ℕ := (n / 2 + 1) / 2

/-- The arguments handed to `math.Pow(·, 0.5)` by `SpanLog` (lines 310–320),
over exact rationals: entry `i` is `min + d*(float64(i)/float64(nPoints-1))`,
with `none` marking the IEEE division `0/0` (NaN) that occurs when the
`nPoints - 1` denominator is zero — there is no guard in the source.
(`math.Pow(NaN, 0.5)` is again NaN, so a `none` argument means an undefined
axis entry.) -/
def SpanLogArg (a b : ℚ) (nPoints : ℕ) : List (Option ℚ) :=
  let lo := min a b
  let hi := max a b
  let d := hi - lo
  (List.range nPoints).map (fun i =>
    if nPoints - 1 = 0 then none else some (lo + d * ((i : ℚ) / ((nPoints - 1 : ℕ) : ℚ))))

/-! ## Helper lemmas -/

theorem mapOption_some {α β : Type} (f : α → Option β) (P : β → Prop) :
    ∀ l : List α, (∀ a ∈ l, ∃ b, f a = some b ∧ P b) →
      ∃ r, mapOption f l = some r ∧ r.length = l.length ∧ ∀ b ∈ r, P b := by
  intro l
  induction l with
  | nil => exact fun _ => ⟨[], rfl, rfl, by simp⟩
  | cons a l ih =>
    intro h
    obtain ⟨b, hb, hPb⟩ := h a (by simp)
    obtain ⟨r, hr, hlen, hP⟩ := ih (fun a' ha' => h a' (by simp [ha']))
    refine ⟨b :: r, by simp [mapOption, hb, hr], by simp [hlen], ?_⟩
    intro b' hb'
    rcases List.mem_cons.mp hb' with h1 | h1
    · exact h1 ▸ hPb
    · exact hP b' h1

theorem mapOption_mem {α β : Type} (f : α → Option β) :
    ∀ (l : List α) (r : List β), mapOption f l = some r →
      ∀ b ∈ r, ∃ a ∈ l, f a = some b := by
  intro l
  induction l with
  | nil =>
    intro r hr b hb
    simp only [mapOption, Option.some.injEq] at hr
    subst hr
    cases hb
  | cons a l ih =>
    intro r hr b hb
    rcases hfa : f a with _ | b0 <;> rcases hml : mapOption f l with _ | r0 <;>
      simp [mapOption, hfa, hml] at hr
    subst hr
    rcases List.mem_cons.mp hb with h1 | h1
    · exact ⟨a, by simp, h1 ▸ hfa⟩
    · obtain ⟨a', ha', hfa'⟩ := ih r0 hml b h1
      exact ⟨a', by simp [ha'], hfa'⟩

theorem mapOption_map {α β : Type} (f : α → Option β) (g : α → β) :
    ∀ l : List α, (∀ a ∈ l, f a = some (g a)) → mapOption f l = some (l.map g) := by
  intro l
  induction l with
  | nil => exact fun _ => rfl
  | cons a l ih =>
    intro h
    simp [mapOption, h a (by simp), ih (fun a' ha' => h a' (by simp [ha'])), List.map_cons]

theorem pushFrame_length_le (w : ℕ) (h : List (List ℕ)) (f : List ℕ)
    (hw : h.length ≤ w) : (pushFrame w h f).length ≤ w := by
  simp only [pushFrame]
  split
  · simp only [List.length_tail, List.length_append, List.length_singleton]
    omega
  · rename_i hcond
    simp only [not_lt, List.length_append, List.length_singleton] at hcond
    simpa using hcond

theorem foldl_pushFrame_le (w : ℕ) :
    ∀ (frames : List (List ℕ)) (h : List (List ℕ)), h.length ≤ w →
      (frames.foldl (pushFrame w) h).length ≤ w := by
  intro frames
  induction frames with
  | nil => intro h hh; simpa using hh
  | cons f frames ih => intro h hh; exact ih _ (pushFrame_length_le w h f hh)

theorem weightAt_pos (L i : ℕ) : 0 < weightAt L i := by
  simp only [weightAt]
  have h1 : 0 < (i + 1) * (i + 1) := Nat.mul_pos (Nat.succ_pos i) (Nat.succ_pos i)
  exact_mod_cast Nat.lt_of_lt_of_le h1 (Nat.le_add_right _ _)

theorem weightsFor_length (L : ℕ) : (weightsFor L).length = L := by simp [weightsFor]

theorem weightsFor_sum_pos (L : ℕ) (hL : 1 ≤ L) : 0 < (weightsFor L).sum := by
  have hne : weightsFor L ≠ [] := by
    simp only [weightsFor, ne_eq, List.map_eq_nil_iff, List.range_eq_nil]
    omega
  refine List.sum_pos _ ?_ hne
  intro q hq
  simp only [weightsFor, List.mem_map] at hq
  obtain ⟨i, _, rfl⟩ := hq
  exact weightAt_pos L i

theorem accumFrame_mul (w c : ℚ) :
    ∀ p : List ℕ, accumFrame (p.map (fun b : ℕ => (b : ℚ) * c)) p w =
      some (p.map (fun b : ℕ => (b : ℚ) * (c + w))) := by
  intro p
  induction p with
  | nil => rfl
  | cons b p ih =>
    have hb : (b : ℚ) * c + (b : ℚ) * w = (b : ℚ) * (c + w) := by ring
    rw [List.map_cons, List.map_cons, accumFrame, ih, Option.map_some', hb]

theorem smoothAccum_const (p : List ℕ) :
    ∀ (ws : List ℚ) (c : ℚ),
      smoothAccum (p.map (fun b : ℕ => (b : ℚ) * c)) (List.replicate ws.length p) ws =
        some (p.map (fun b : ℕ => (b : ℚ) * (c + ws.sum))) := by
  intro ws
  induction ws with
  | nil => intro c; simp [smoothAccum]
  | cons w ws ih =>
    intro c
    simp only [List.length_cons, List.replicate_succ, smoothAccum, accumFrame_mul w c p]
    rw [ih (c + w)]
    simp [List.sum_cons, add_assoc]

theorem replicate_zero_map (p : List ℕ) :
    List.replicate p.length (0 : ℚ) = p.map (fun b : ℕ => (b : ℚ) * 0) := by
  induction p with
  | nil => rfl
  | cons b p ih => simp only [List.length_cons, List.replicate_succ, List.map_cons, ih, mul_zero]

theorem copyQuads_take :
    ∀ (q : ℕ) (l : List ℚ), 4 * q ≤ l.length →
      copyQuads l q = some ((l.take (4 * q)).map byteOfRat) := by
  intro q
  induction q with
  | zero => intro l _; simp [copyQuads]
  | succ q ih =>
    intro l hl
    match l, hl with
    | [], hl => simp at hl
    | [r], hl => simp at hl; omega
    | [r, g], hl => simp at hl; omega
    | [r, g, b], hl => simp at hl; omega
    | r :: g :: b :: a :: rest, hl =>
      have hr : 4 * q ≤ rest.length := by simp at hl; omega
      rw [copyQuads, ih rest hr, Option.map_some']
      rw [show 4 * (q + 1) = 4 * q + 1 + 1 + 1 + 1 from by ring]
      simp [List.take_succ_cons]

theorem byteOfRat_natCast (n : ℕ) : byteOfRat (n : ℚ) = n := by
  simp [byteOfRat]

theorem map_byteOfRat_cast (l : List ℕ) :
    (l.map (fun n : ℕ => (n : ℚ))).map byteOfRat = l := by
  rw [List.map_map]
  have hco : (byteOfRat ∘ fun n : ℕ => (n : ℚ)) = id := by
    funext n
    simp [Function.comp, byteOfRat_natCast]
  rw [hco, List.map_id]

theorem smoothFrames_const (p : List ℕ) (L : ℕ) (hL : 1 ≤ L) :
    smoothFrames (List.replicate L p) p.length = some (p.map (fun b : ℕ => (b : ℚ))) := by
  have hws : (weightsFor L).length = L := weightsFor_length L
  have hsum : 0 < (weightsFor L).sum := weightsFor_sum_pos L hL
  have h2 := smoothAccum_const p (weightsFor L) 0
  rw [hws] at h2
  simp only [smoothFrames, List.length_replicate]
  rw [replicate_zero_map p, h2]
  simp only [List.map_map, Option.some.injEq]
  refine List.map_congr_left ?_
  intro a _
  simp only [Function.comp_apply, zero_add]
  rw [mul_div_assoc, div_self (ne_of_gt hsum), mul_one]

theorem distributeSegments_zero_offset (segments : List Segment) (pix3 : List ℚ)
    (h : ∀ s ∈ segments, s.leds * 4 ≤ pix3.length) :
    distributeSegments segments pix3 =
      some (segments.map (fun s => (s.id, (pix3.take (s.leds * 4)).map byteOfRat))) := by
  apply mapOption_map
  intro s hs
  have hle : 4 * s.leds ≤ pix3.length := by rw [mul_comm]; exact h s hs
  simp only [segmentBytes, copyQuads_take s.leds pix3 hle, Option.map_some']
  rw [mul_comm 4 s.leds]

theorem dispatchProcess_globals (v : VisualizerState) (g : AudioGlobals) (pix : List ℕ)
    (h : v.processing = false) :
    (dispatchProcess v g pix).2.1 = ⟨pushFrame v.windowSize g.pixs pix⟩ := by
  simp only [dispatchProcess, h, Bool.false_eq_true, if_false]
  rcases hsf : smoothFrames (pushFrame v.windowSize g.pixs pix) pix.length with _ | pix3
  · simp [hsf]
  · rcases hds : distributeSegments v.segments pix3 with _ | segs <;> simp [hsf, hds]

/-! ## Claims -/

/-- Claim C2 (code bug evaluation): for the captured buffer `[1,0,0,0]`
(`k = 1`), the decoder produces TWO samples `[0, 1]` — `make([]float64, len(buf)/4)`
pre-fills `k` zero samples and the loop appends the `k` decoded values after
them — not the single sample `[1]` described by the claim. -/
theorem claim2_decoder_at_failing_input :
    decodeSamples [1, 0, 0, 0] = some [0, 1] ∧
    (decodeSamples [1, 0, 0, 0]).map List.length = some 2 := by decide

/-- Claim C4: dispatching `process` while the single-flight `processing` flag
is set returns immediately (lines 333–337): the call emits no event, leaves
the smoothing history untouched, and is a total (non-crashing) path. -/
theorem claim4_single_flight_skip :
    ∀ (v : VisualizerState) (g : AudioGlobals) (pix : List ℕ),
      v.processing = true → dispatchProcess v g pix = (v, g, none) := by
  intro v g pix h
  simp [dispatchProcess, h]

/-- Witness for C4 at a concrete busy state. -/
theorem claim4_witness :
    dispatchProcess ⟨true, 2, [⟨0, 1⟩]⟩ ⟨[]⟩ [1, 2, 3, 4] =
      (⟨true, 2, [⟨0, 1⟩]⟩, ⟨[]⟩, none) :=
  claim4_single_flight_skip _ _ _ rfl

/-- Claim C6: starting from the empty package-level history, any sequence of
appends leaves at most `windowSize` frames, and appending to a history that
already holds `windowSize ≥ 1` frames evicts exactly the oldest one (FIFO). -/
theorem claim6_history_bound_fifo :
    (∀ (w : ℕ) (frames : List (List ℕ)), (frames.foldl (pushFrame w) []).length ≤ w) ∧
    (∀ (w : ℕ) (pixs : List (List ℕ)) (pix : List ℕ), pixs.length = w → 1 ≤ w →
      pushFrame w pixs pix = pixs.tail ++ [pix]) := by
  constructor
  · intro w frames
    exact foldl_pushFrame_le w frames [] (by simp)
  · intro w pixs pix hlen hw
    simp only [pushFrame]
    rw [if_pos (by simp [hlen])]
    cases pixs with
    | nil => simp at hlen; omega
    | cons a t => simp

/-- Witness for C6: a window-2 history `[[1],[2]]` at capacity drops `[1]`. -/
theorem claim6_witness :
    pushFrame 2 [[1], [2]] [3] = [[1], [2]].tail ++ [[3]] :=
  claim6_history_bound_fifo.2 2 [[1], [2]] [3] rfl (by decide)

/-- Counterexample to Claim C8 as stated: `Stop` on a never-started
`Visualizer` does not return — `v.cancel` is nil (skipped) and `<-v.done`
receives from a nil channel, which blocks forever. -/
theorem claim8_counterexample : Stop newVisualizer = none := rfl

/-- Claim C8 (amended): calling `stop()` when the pipeline is not running
blocks forever instead of returning — before `start()` the `done` channel is
nil, and after a completed `stop()` no further send on `done` ever happens. -/
theorem claim8_stop_blocks :
    Stop newVisualizer = none ∧
    ∀ s : VisLifecycle, s.done = some 0 → Stop s = none := by
  refine ⟨rfl, ?_⟩
  intro s hs
  by_cases hc : s.cancel <;> simp [Stop, hc, hs]

/-- Witness for C8 (amended) at the state left behind by a completed stop. -/
theorem claim8_witness : Stop ⟨false, some 0⟩ = none :=
  claim8_stop_blocks.2 ⟨false, some 0⟩ rfl

/-- Counterexample to Claim C9 as stated: for a single-point magnitude
sequence the sole warped-axis argument is `0/0` — the `nPoints-1` denominator
is zero and unguarded, so the axis entry is NaN, not a well-defined value. -/
theorem claim9_counterexample : SpanLogArg 0 1 1 = [none] := by decide

/-- Claim C9 (amended): `SpanLog` has no guard on `nPoints - 1`; its axis
arguments are all well-defined divisions exactly when the point count is
not 1 (for `nPoints = 1` the sole entry is the IEEE division `0/0`). -/
theorem claim9_axis_guard :
    ∀ (a b : ℚ) (n : ℕ), (SpanLogArg a b n).all Option.isSome = (n != 1) := by
  intro a b n
  match n with
  | 0 => rfl
  | 1 => rfl
  | n + 2 =>
    have hrhs : ((n + 2 : ℕ) != 1) = true := by simp
    rw [hrhs, List.all_eq_true]
    intro o ho
    simp only [SpanLogArg, List.mem_map] at ho
    obtain ⟨i, _, hio⟩ := ho
    rw [if_neg (by omega : ¬(n + 2 - 1 = 0))] at hio
    rw [← hio]
    rfl

/-- Claim C5: the smoothing weights are strictly increasing in recency for a
fixed history length, and smoothing a history of identical frames reproduces
that frame exactly. -/
theorem claim5_weights_const_smooth :
    (∀ L i j : ℕ, i < j → j < L → weightAt L i < weightAt L j) ∧
    (∀ (p : List ℕ) (L : ℕ), 1 ≤ L →
      smoothFrames (List.replicate L p) p.length = some (p.map (fun b : ℕ => (b : ℚ)))) := by
  constructor
  · intro L i j hij _
    simp only [weightAt]
    have h1 : (i + 1) * (i + 1) + L * L < (j + 1) * (j + 1) + L * L := by nlinarith
    exact_mod_cast h1
  · exact fun p L hL => smoothFrames_const p L hL

/-- Witness for C5 at concrete weights and a concrete constant history. -/
theorem claim5_witness :
    weightAt 3 0 < weightAt 3 1 ∧
    smoothFrames (List.replicate 2 [7, 8]) ([7, 8] : List ℕ).length =
      some (([7, 8] : List ℕ).map (fun b : ℕ => (b : ℚ))) :=
  ⟨claim5_weights_const_smooth.1 3 0 1 (by decide) (by decide),
   claim5_weights_const_smooth.2 [7, 8] 2 (by decide)⟩

/-- Claim C1 (amended): every segment receives an owned copy of the byte
range `[0, leds*4)` of the smoothed frame — the source offset is always 0
(`offset := i` is the segment-local index), not the sum of the earlier
segments' sizes. -/
theorem claim1_segments_zero_offset :
    ∀ (segments : List Segment) (pix3 : List ℚ),
      (∀ s ∈ segments, s.leds * 4 ≤ pix3.length) →
      distributeSegments segments pix3 =
        some (segments.map (fun s => (s.id, (pix3.take (s.leds * 4)).map byteOfRat))) :=
  fun segments pix3 h => distributeSegments_zero_offset segments pix3 h

/-- Witness for C1 (amended) at a single 1-LED segment and a 4-byte frame. -/
theorem claim1_witness :
    distributeSegments [⟨0, 1⟩] [1, 2, 3, 4] =
      some ([(⟨0, 1⟩ : Segment)].map
        (fun s => (s.id, (([1, 2, 3, 4] : List ℚ).take (s.leds * 4)).map byteOfRat))) :=
  claim1_segments_zero_offset [⟨0, 1⟩] [1, 2, 3, 4] (by decide)

/-- Counterexample to Claim C1 as stated, at the claim's own instance:
for segments `[{0,10},{1,20}]` and the 30-LED smoothed frame whose byte `j`
is `j` (fixed by a singleton history, which smooths to the identity),
segment 1 receives bytes `[0,80)` — the frame's prefix — and not the claimed
contiguous range `[40,120)`. -/
theorem claim1_counterexample :
    smoothFrames [List.range 120] 120 = some ((List.range 120).map (fun n : ℕ => (n : ℚ))) ∧
    distributeSegments [⟨0, 10⟩, ⟨1, 20⟩] ((List.range 120).map (fun n : ℕ => (n : ℚ))) =
      some [(0, (List.range 120).take 40), (1, (List.range 120).take 80)] ∧
    (List.range 120).take 80 ≠ (List.range 120).drop 40 := by
  refine ⟨?_, ?_, by decide⟩
  · have h := smoothFrames_const (List.range 120) 1 (le_refl 1)
    simpa using h
  · rw [distributeSegments_zero_offset _ _ ?_]
    · simp only [List.map_cons, List.map_nil, List.map_take, map_byteOfRat_cast]
    · intro s hs
      simp only [List.mem_cons, List.not_mem_nil, or_false] at hs
      rcases hs with rfl | rfl <;> simp

/-- Claim C10: the smoothing history lives in the package-level `pixs`
(line 577), shared by all `Visualizer` instances: every non-skipped
`process` call writes the shared history, and the smoothed output of one
instance's call depends on frames processed by the other instance (concrete
two-instance run: instance B's event differs according to whether instance A
processed a frame first). -/
theorem claim10_shared_history :
    (∀ (v : VisualizerState) (g : AudioGlobals) (pix : List ℕ), v.processing = false →
      ((dispatchProcess v g pix).2.1).pixs = pushFrame v.windowSize g.pixs pix) ∧
    (dispatchProcess instB (dispatchProcess instA ⟨[]⟩ frameA).2.1 frameB).2.2 ≠
      (dispatchProcess instB ⟨[]⟩ frameB).2.2 := by
  constructor
  · intro v g pix h
    rw [dispatchProcess_globals v g pix h]
  · rw [dispatchProcess_globals instA ⟨[]⟩ frameA rfl]
    have hA : pushFrame instA.windowSize (AudioGlobals.mk []).pixs frameA = [frameA] := rfl
    rw [hA]
    have hsm1 : smoothFrames [[0, 0, 0, 0], [13, 13, 13, 13]] 4 = some [8, 8, 8, 8] := by
      norm_num [smoothFrames, smoothAccum, accumFrame, weightsFor, weightAt,
        List.range_succ, List.replicate]
    have hds1 : distributeSegments [⟨0, 1⟩] [8, 8, 8, 8] = some [(0, [8, 8, 8, 8])] := by
      norm_num [distributeSegments, mapOption, segmentBytes, copyQuads, byteOfRat]
      decide
    have hsm2 : smoothFrames [[13, 13, 13, 13]] 4 = some [13, 13, 13, 13] := by
      norm_num [smoothFrames, smoothAccum, accumFrame, weightsFor, weightAt,
        List.range_succ, List.replicate]
    have hds2 : distributeSegments [⟨0, 1⟩] [13, 13, 13, 13] =
        some [(0, [13, 13, 13, 13])] := by
      norm_num [distributeSegments, mapOption, segmentBytes, copyQuads, byteOfRat]
      decide
    have h1 : dispatchProcess instB ⟨[frameA]⟩ frameB =
        (instB, ⟨[frameA, frameB]⟩, some [(0, [8, 8, 8, 8])]) := by
      simp [dispatchProcess, instB, pushFrame, frameA, frameB, hsm1, hds1]
    have h2 : dispatchProcess instB ⟨[]⟩ frameB =
        (instB, ⟨[frameB]⟩, some [(0, [13, 13, 13, 13])]) := by
      simp [dispatchProcess, instB, pushFrame, frameA, frameB, hsm2, hds2]
    rw [h1, h2]
    simp

/-- Witness for C10: instance A's dispatch appends to the shared history. -/
theorem claim10_witness :
    ((dispatchProcess instA ⟨[]⟩ frameA).2.1).pixs =
      pushFrame instA.windowSize (AudioGlobals.mk []).pixs frameA :=
  claim10_shared_history.1 instA ⟨[]⟩ frameA rfl

section AnalyzerProofs

variable {K : Type} [LinearOrderedField K]

theorem getD_of_lt {α : Type} (l : List α) (n : ℕ) (d : α) (h : n < l.length) :
    l.getD n d = l.get ⟨n, h⟩ := by
  rw [List.getD_eq_getElem?_getD, List.getElem?_eq_getElem h]
  rfl

/-- Loop invariant of Go's `sort.Search`: on termination with result `r`,
`X[r-1] < x` whenever `r > 0`, and `x ≤ X[r]` whenever `r < len X` — with no
sortedness assumption, because the loop only ever moved `i` past a tested
index that failed `x ≤ X[h]` and `j` onto one that satisfied it. -/
theorem searchGo_spec (X : List K) (x : K) :
    ∀ (fuel i j : ℕ), i ≤ j → j ≤ X.length → j - i ≤ fuel →
      (0 < i → X.getD (i - 1) 0 < x) → (j < X.length → x ≤ X.getD j 0) →
      i ≤ searchGo X x fuel i j ∧ searchGo X x fuel i j ≤ j ∧
        (0 < searchGo X x fuel i j → X.getD (searchGo X x fuel i j - 1) 0 < x) ∧
        (searchGo X x fuel i j < X.length → x ≤ X.getD (searchGo X x fuel i j) 0) := by
  intro fuel
  induction fuel with
  | zero =>
    intro i j hij hjlen hf hl hr
    have hji : i = j := by omega
    subst hji
    exact ⟨le_refl i, le_refl i, hl, hr⟩
  | succ fuel ih =>
    intro i j hij hjlen hf hl hr
    rw [searchGo]
    split_ifs with hlt hc
    · have h5 := ih i ((i + j) / 2) (by omega) (by omega) (by omega) hl (fun _ => hc)
      exact ⟨h5.1, le_trans h5.2.1 (by omega), h5.2.2.1, h5.2.2.2⟩
    · have hx : X.getD ((i + j) / 2) 0 < x := lt_of_not_le hc
      have h5 := ih ((i + j) / 2 + 1) j (by omega) hjlen (by omega)
        (fun _ => by simpa using hx) hr
      exact ⟨le_trans (by omega) h5.1, h5.2.1, h5.2.2.1, h5.2.2.2⟩
    · have hji : i = j := by omega
      subst hji
      exact ⟨le_refl i, le_refl i, hl, hr⟩

theorem SearchFloat64s_spec (X : List K) (x : K) :
    SearchFloat64s X x ≤ X.length ∧
      (0 < SearchFloat64s X x → X.getD (SearchFloat64s X x - 1) 0 < x) ∧
      (SearchFloat64s X x < X.length → x ≤ X.getD (SearchFloat64s X x) 0) := by
  have h := searchGo_spec X x X.length 0 X.length (Nat.zero_le _) (le_refl _) (by omega)
    (fun h0 => absurd h0 (lt_irrefl 0)) (fun hL => absurd hL (lt_irrefl _))
  exact ⟨h.2.1, h.2.2.1, h.2.2.2⟩

/-- Wherever `At` returns a value, that value lies between any bounds
enclosing all of `Y` — each branch returns either an element of `Y` or a
proper convex combination of two consecutive elements. -/
theorem At_some_bounds (X Y : List K) (x lb ub : K) (hlen : X.length = Y.length)
    (hne : Y ≠ []) (hb : ∀ y ∈ Y, lb ≤ y ∧ y ≤ ub) :
    ∃ v, At X Y x = some v ∧ lb ≤ v ∧ v ≤ ub := by
  obtain ⟨hle, hleft, hright⟩ := SearchFloat64s_spec X x
  have hY : 0 < Y.length := List.length_pos.mpr hne
  simp only [At]
  by_cases hi0 : SearchFloat64s X x = 0
  · rw [if_pos hi0, List.get?_eq_get hY]
    exact ⟨_, rfl, (hb _ (List.get_mem Y 0 hY)).1, (hb _ (List.get_mem Y 0 hY)).2⟩
  · rw [if_neg hi0]
    by_cases hiL : SearchFloat64s X x = X.length
    · rw [if_pos hiL]
      have hi1 : SearchFloat64s X x - 1 < Y.length := by omega
      rw [List.get?_eq_get hi1]
      exact ⟨_, rfl, (hb _ (List.get_mem _ _ hi1)).1, (hb _ (List.get_mem _ _ hi1)).2⟩
    · rw [if_neg hiL]
      have hilt : SearchFloat64s X x < X.length := lt_of_le_of_ne hle hiL
      by_cases hxe : X.getD (SearchFloat64s X x) 0 = x
      · rw [if_pos hxe]
        have hiY : SearchFloat64s X x < Y.length := hlen ▸ hilt
        rw [List.get?_eq_get hiY]
        exact ⟨_, rfl, (hb _ (List.get_mem _ _ hiY)).1, (hb _ (List.get_mem _ _ hiY)).2⟩
      · rw [if_neg hxe]
        have hi1 : 0 < SearchFloat64s X x := Nat.pos_of_ne_zero hi0
        have hX0 : SearchFloat64s X x - 1 < X.length := by omega
        have hY0 : SearchFloat64s X x - 1 < Y.length := by omega
        have hY1 : SearchFloat64s X x < Y.length := by omega
        rw [List.get?_eq_get hX0, List.get?_eq_get hilt, List.get?_eq_get hY0,
          List.get?_eq_get hY1]
        have hx0 : X.get ⟨SearchFloat64s X x - 1, hX0⟩ < x := by
          rw [← getD_of_lt X _ 0 hX0]
          exact hleft hi1
        have hx1 : x < X.get ⟨SearchFloat64s X x, hilt⟩ := by
          rw [← getD_of_lt X _ 0 hilt]
          exact lt_of_le_of_ne (hright hilt) (fun he => hxe he.symm)
        have hy0 := hb _ (List.get_mem Y _ hY0)
        have hy1 := hb _ (List.get_mem Y _ hY1)
        refine ⟨_, rfl, ?_, ?_⟩
        · set x0 := X.get ⟨SearchFloat64s X x - 1, hX0⟩
          set x1 := X.get ⟨SearchFloat64s X x, hilt⟩
          set y0 := Y.get ⟨SearchFloat64s X x - 1, hY0⟩
          set y1 := Y.get ⟨SearchFloat64s X x, hY1⟩
          have hd : 0 < x1 - x0 := by linarith
          have ht0 : 0 < (x - x0) / (x1 - x0) := div_pos (by linarith) hd
          have ht1 : (x - x0) / (x1 - x0) < 1 := (div_lt_one hd).mpr (by linarith)
          nlinarith [mul_nonneg ht0.le (sub_nonneg.mpr hy1.1),
            mul_nonneg (sub_nonneg.mpr ht1.le) (sub_nonneg.mpr hy0.1)]
        · set x0 := X.get ⟨SearchFloat64s X x - 1, hX0⟩
          set x1 := X.get ⟨SearchFloat64s X x, hilt⟩
          set y0 := Y.get ⟨SearchFloat64s X x - 1, hY0⟩
          set y1 := Y.get ⟨SearchFloat64s X x, hY1⟩
          have hd : 0 < x1 - x0 := by linarith
          have ht0 : 0 < (x - x0) / (x1 - x0) := div_pos (by linarith) hd
          have ht1 : (x - x0) / (x1 - x0) < 1 := (div_lt_one hd).mpr (by linarith)
          nlinarith [mul_nonneg ht0.le (sub_nonneg.mpr hy1.2),
            mul_nonneg (sub_nonneg.mpr ht1.le) (sub_nonneg.mpr hy0.2)]

/-- If every entry of `Y` is zero then any value `At` returns is zero. -/
theorem At_some_eq_zero (X Y : List K) (x v : K) (h0 : ∀ y ∈ Y, y = 0)
    (h : At X Y x = some v) : v = 0 := by
  simp only [At] at h
  by_cases hi0 : SearchFloat64s X x = 0
  · rw [if_pos hi0] at h
    exact h0 v (List.get?_mem h)
  · rw [if_neg hi0] at h
    by_cases hiL : SearchFloat64s X x = X.length
    · rw [if_pos hiL] at h
      exact h0 v (List.get?_mem h)
    · rw [if_neg hiL] at h
      by_cases hxe : X.getD (SearchFloat64s X x) 0 = x
      · rw [if_pos hxe] at h
        exact h0 v (List.get?_mem h)
      · rw [if_neg hxe] at h
        rcases hX0 : X.get? (SearchFloat64s X x - 1) with _ | x0 <;> rw [hX0] at h
        · cases h
        rcases hX1 : X.get? (SearchFloat64s X x) with _ | x1 <;> rw [hX1] at h
        · cases h
        rcases hY0 : Y.get? (SearchFloat64s X x - 1) with _ | y0 <;> rw [hY0] at h
        · cases h
        rcases hY1 : Y.get? (SearchFloat64s X x) with _ | y1 <;> rw [hY1] at h
        · cases h
        have hy0 : y0 = 0 := h0 y0 (List.get?_mem hY0)
        have hy1 : y1 = 0 := h0 y1 (List.get?_mem hY1)
        simp only [Option.some.injEq] at h
        rw [← h, hy0, hy1]
        ring

theorem maxFreq_foldl_spec :
    ∀ (l : List K) (acc : K),
      acc ≤ l.foldl (fun a f => if a < f then f else a) acc ∧
        ∀ f ∈ l, f ≤ l.foldl (fun a f => if a < f then f else a) acc := by
  intro l
  induction l with
  | nil => exact fun acc => ⟨le_refl acc, by simp⟩
  | cons f0 l ih =>
    intro acc
    have hstep : acc ≤ (if acc < f0 then f0 else acc) ∧ f0 ≤ (if acc < f0 then f0 else acc) := by
      split_ifs with hc
      · exact ⟨le_of_lt hc, le_refl f0⟩
      · exact ⟨le_refl acc, le_of_not_lt hc⟩
    have hf := ih (if acc < f0 then f0 else acc)
    refine ⟨le_trans hstep.1 hf.1, ?_⟩
    intro f hfmem
    rcases List.mem_cons.mp hfmem with rfl | hmem
    · exact le_trans hstep.2 hf.1
    · exact hf.2 f hmem

theorem maxFreq_spec (l : List K) : 0 ≤ maxFreq l ∧ ∀ f ∈ l, f ≤ maxFreq l :=
  maxFreq_foldl_spec l 0

theorem normalize_bounds (f m : K) (h0 : 0 ≤ f) (hm : f ≤ m) :
    0 ≤ normalize f 0 m ∧ normalize f 0 m ≤ 1 := by
  simp only [normalize]
  by_cases hm0 : m = 0
  · rw [if_pos hm0, hm0]
    exact ⟨le_refl 0, zero_le_one⟩
  · rw [if_neg hm0]
    have hmpos : 0 < m := lt_of_le_of_ne (le_trans h0 hm) (Ne.symm hm0)
    constructor
    · exact div_nonneg (by linarith) (by linarith)
    · rw [div_le_one (by linarith)]
      linarith

theorem SpanLog_length (powHalf : K → K) (a b : K) (n : ℕ) :
    (SpanLog powHalf a b n).length = n := by
  simp [SpanLog]

/-- Core property of the spectral resampling stage: for a non-empty magnitude
list of nonnegative values, the output exists, has exactly `maxLeds` entries,
and every entry lies in `[0, 1]`. -/
theorem binsFromMags_spec (powHalf : K → K) (mags : List K) (peak : K) (maxLeds : ℕ)
    (hne : mags ≠ []) (hpos : ∀ f ∈ mags, 0 ≤ f) :
    ∃ bins, binsFromMags powHalf mags peak maxLeds = some bins ∧
      bins.length = maxLeds ∧ ∀ v ∈ bins, 0 ≤ v ∧ v ≤ 1 := by
  simp only [binsFromMags]
  have hlen1 : (if peak = 0 then mags.map (fun _ => (0 : K)) else mags).length = mags.length := by
    split <;> simp
  have hne2 : ((if peak = 0 then mags.map (fun _ => (0 : K)) else mags).map
      (fun f => normalize f 0 (maxFreq mags))) ≠ [] := by
    intro hc
    apply hne
    have := congrArg List.length hc
    simp only [List.length_map, hlen1, List.length_nil] at this
    exact List.eq_nil_of_length_eq_zero this
  have hb2 : ∀ y ∈ (if peak = 0 then mags.map (fun _ => (0 : K)) else mags).map
      (fun f => normalize f 0 (maxFreq mags)), 0 ≤ y ∧ y ≤ 1 := by
    intro y hy
    simp only [List.mem_map] at hy
    obtain ⟨f, hf, rfl⟩ := hy
    have hf' : 0 ≤ f ∧ f ≤ maxFreq mags := by
      split at hf
      · simp only [List.mem_map] at hf
        obtain ⟨_, _, rfl⟩ := hf
        exact ⟨le_refl 0, (maxFreq_spec mags).1⟩
      · exact ⟨hpos f hf, (maxFreq_spec mags).2 f hf⟩
    exact normalize_bounds f (maxFreq mags) hf'.1 hf'.2
  obtain ⟨bins, hbins, hblen, hbP⟩ := mapOption_some _ (fun v => 0 ≤ v ∧ v ≤ 1)
    (List.range maxLeds)
    (fun i _ => At_some_bounds _ _ _ 0 1 (by rw [SpanLog_length]) hne2 hb2)
  exact ⟨bins, hbins, by simpa using hblen, hbP⟩

end AnalyzerProofs

/-- Claim C3 (amended): a sample frame of length at least 2 yields at least
one magnitude (`magCount n ≥ 1`), and for every non-empty magnitude list of
nonnegative values — over any ordered field and any `math.Pow(·, 0.5)`
implementation — the Spectral Analyzer output exists, has length exactly
`ledCount`, and every value lies in `[0, 1]`.  (A one-sample frame instead
yields an empty magnitude list, on which the interpolation's `Y[0]` read is
out of range: see the counterexample.) -/
theorem claim3_bins_length_bounds :
    (∀ n : ℕ, 2 ≤ n → magCount n ≠ 0) ∧
    (∀ (K : Type) [LinearOrderedField K] (powHalf : K → K) (mags : List K) (peak : K)
        (maxLeds : ℕ), mags ≠ [] → (∀ f ∈ mags, 0 ≤ f) →
      ∃ bins, binsFromMags powHalf mags peak maxLeds = some bins ∧
        bins.length = maxLeds ∧ ∀ v ∈ bins, 0 ≤ v ∧ v ≤ 1) := by
  constructor
  · intro n hn
    simp only [magCount]
    omega
  · intro K _ powHalf mags peak maxLeds hne hpos
    exact binsFromMags_spec powHalf mags peak maxLeds hne hpos

/-- Witness for C3 (amended) at a concrete magnitude list over `ℚ`. -/
theorem claim3_witness :
    ∃ bins, binsFromMags (K := ℚ) id [0, 3] 1 2 = some bins ∧
      bins.length = 2 ∧ ∀ v ∈ bins, 0 ≤ v ∧ v ≤ 1 :=
  claim3_bins_length_bounds.2 ℚ id [0, 3] 1 2 (by simp)
    (by intro f hf; simp only [List.mem_cons, List.not_mem_nil, or_false] at hf
        rcases hf with rfl | rfl <;> norm_num)

/-- Counterexample to Claim C3 as stated: a one-sample frame is non-empty,
but it yields zero magnitudes (`magCount 1 = 0`), and on an empty magnitude
list the resampling loop's first interpolation reads `Y[0]` out of range
(an index panic) — there is no SpectralBins output at all, in particular none
of length `ledCount`. -/
theorem claim3_counterexample :
    magCount 1 = 0 ∧ binsFromMags (K := ℚ) id [] 1 3 = none := by
  refine ⟨rfl, ?_⟩
  simp only [binsFromMags]
  rw [if_neg (by norm_num : ¬(1 : ℚ) = 0)]
  simp [mapOption, At, SearchFloat64s, searchGo, SpanLog, List.range_succ]

/-- Claim C7: with peak amplitude exactly 0, the silence gate forces every
magnitude to zero, so every SpectralBins value produced is exactly 0, and the
shaped value component of every LED is the floor brightness `0.25` — for any
ordered field and any square-root implementation. -/
theorem claim7_silence_floor :
    ∀ (K : Type) [LinearOrderedField K] (powHalf sqrtFn : K → K) (mags : List K)
        (maxLeds : ℕ) (bins : List K),
      binsFromMags powHalf mags 0 maxLeds = some bins →
      ∀ v ∈ bins, v = 0 ∧ shapedVal sqrtFn v 0 = 1 / 4 := by
  intro K _ powHalf sqrtFn mags maxLeds bins h v hv
  have hv0 : v = 0 := by
    simp only [binsFromMags, if_pos rfl] at h
    obtain ⟨i, _, hAt⟩ := mapOption_mem _ _ _ h v hv
    refine At_some_eq_zero _ _ _ _ ?_ hAt
    intro y hy
    obtain ⟨f, hf, hfy⟩ := List.mem_map.mp hy
    obtain ⟨m, _, hm0⟩ := List.mem_map.mp hf
    have hf0 : f = 0 := hm0.symm
    have hyn : y = normalize 0 0 (maxFreq mags) := by rw [← hfy, hf0]
    rw [hyn]
    simp only [normalize]
    split
    · assumption
    · simp
  refine ⟨hv0, ?_⟩
  subst hv0
  simp only [shapedVal, zero_mul, min_eq_left (zero_le_one (α := K)), max_self, add_zero]

/-- Witness for C7 at a concrete silent frame over `ℚ`. -/
theorem claim7_witness :
    ∃ bins, binsFromMags (K := ℚ) id [2, 5] 0 2 = some bins ∧
      ∀ v ∈ bins, v = 0 ∧ shapedVal (K := ℚ) id v 0 = 1 / 4 := by
  obtain ⟨bins, hbins, _, _⟩ := binsFromMags_spec (K := ℚ) id [2, 5] 0 2 (by simp)
    (by intro f hf; simp only [List.mem_cons, List.not_mem_nil, or_false] at hf
        rcases hf with rfl | rfl <;> norm_num)
  exact ⟨bins, hbins, claim7_silence_floor ℚ id id [2, 5] 2 bins hbins⟩

end Ambilight
